import Mathlib

/-! Verification of the NYT Spelling Bee solver (`src/bee_solver.py`).

Python strings are modelled as lists of characters (`Str`); the word file and
the command-line surface are modelled as explicit inputs; `sys.exit(n)` is
modelled as `Except.error n`.  The domain of the program is ASCII letters, so
Python's Unicode predicates (`str.isalpha`, `str.lower`, `str.upper`,
`str.casefold`) are modelled by their ASCII behaviour (`Char.isAlpha`,
`Char.toLower`, `Char.toUpper`; `casefold` coincides with `lower` on ASCII).
-/

/-- Python strings, modelled as lists of characters. -/
abbrev Str := List Char

/-- Module constant `ALPHABET = set(string.ascii_lowercase)`, as the explicit
list of the 26 lowercase ASCII letters. -/
def ALPHABET : List Char :=
  ['a', 'b', 'c', 'd', 'e', 'f', 'g', 'h', 'i', 'j', 'k', 'l', 'm',
   'n', 'o', 'p', 'q', 'r', 's', 't', 'u', 'v', 'w', 'x', 'y', 'z']

/-- Python `str.lower()` applied to a word (ASCII case mapping). -/
def lowerW (w : Str) : Str := w.map Char.toLower

/-- Python `str.upper()` applied to a word (ASCII case mapping), as used in
`words.add(word.upper())` on line 166 of `bee_solver.py`. -/
def upperW (w : Str) : Str := w.map Char.toUpper

/-- Function `validate_char` (lines 40-49): the input is a single alphabetical
character, i.e. `char.isalpha() and len(char) == 1`. -/
def validate_char (char : Str) : Bool :=
  char.all Char.isAlpha && char.length == 1

/-- Function `check_duplicate` (lines 52-62): the candidate is a valid single
letter and is not already an element of `letters`
(`validate_char(char) and char not in letters`); the membership test is
Python's exact string equality. -/
def check_duplicate (char : Str) (letters : List Str) : Bool :=
  validate_char char && !(letters.contains char)

/-- Function `get_words` (lines 132-143).  The word file is modelled as an
optional list of lines (`none` = `FileNotFoundError`).  When present, the
first two lines are dropped and the rest lowercased in order
(`[x.lower() for x in file.read().splitlines()[2:]]`); when absent the
program prints an error and calls `sys.exit(1)`, modelled as
`Except.error 1`. -/
def get_words (file : Option (List Str)) : Except Nat (List Str) :=
  match file with
  | some lines => .ok ((lines.drop 2).map lowerW)
  | none => .error 1

/-- Local value `unacceptable = ALPHABET - set(acceptable)` (line 162). -/
def unacceptable (acceptable : List Char) : List Char :=
  ALPHABET.filter (fun ch => !(acceptable.contains ch))

/-- Guard of line 164: `center in word and not any(el in unacceptable for el
in word)`.  (`center` and the members of `acceptable` are one-character
strings in Python, so `in` is character membership.) -/
def word_ok (acceptable : List Char) (center : Char) (word : Str) : Bool :=
  word.contains center && !(word.any (fun el => (unacceptable acceptable).contains el))

/-- Pangram test of line 165: `all(el in word for el in acceptable)`. -/
def is_pangram (acceptable : List Char) (word : Str) : Bool :=
  acceptable.all (fun el => word.contains el)

/-- What the loop body adds to the set `words` for a matching word: the word
uppercased when it is a pangram (line 166), the word itself otherwise
(line 169). -/
def mark (acceptable : List Char) (word : Str) : Str :=
  if is_pangram acceptable word then upperW word else word

/-- Function `solver` (lines 146-170).  The loop over `word_list` filters by
`word_ok` and accumulates `mark`-ed words into the Python set `words`,
modelled by `List.dedup` of the marked matches (a set keeps one copy of each
element; its iteration order is irrelevant because the result is sorted).
`num_pan` is incremented once per matching loop iteration whose word passes
the pangram test, i.e. it counts occurrences, not set elements.
`sorted(words, key=str.casefold)` sorts by the casefolded word, which on this
ASCII domain is sorting by `lowerW` in lexicographic order. -/
def solver (word_list : List Str) (acceptable : List Char) (center : Char) :
    List Str × Nat :=
  let matched := word_list.filter (word_ok acceptable center)
  let words := (matched.map (mark acceptable)).dedup
  let num_pan := matched.countP (is_pangram acceptable)
  (List.insertionSort (fun x y => lowerW x ≤ lowerW y) words, num_pan)

/-- Function `print_results` (lines 173-196), modelled as the list of printed
lines. -/
def print_results (words : List Str) (num_pan : Nat) : List String :=
  let num_words := words.length
  if num_words = 0 then
    ["No words were found."]
  else
    let pan_ess := if num_pan != 1 then "s" else ""
    let pan_str :=
      if num_pan > 0 then
        ", including " ++ toString num_pan ++ " pangram" ++ pan_ess ++ ","
      else ""
    let verb := if num_words != 1 then "were" else "was"
    let ess := if num_words != 1 then "s" else ""
    (toString num_words ++ " word" ++ ess ++ pan_str ++ " " ++ verb ++ " found:")
      :: words.map (fun word => "\t" ++ String.mk word)

/-- Function `check_letter` (lines 199-210): a letter argument failing
`validate_char` raises `ArgumentTypeError`; a valid one is lowercased.
Modelled from the spec: argparse (Python standard library, not part of
`src/`) turns the `ArgumentTypeError` into a printed error message and a
program exit, which the spec describes as exiting with status 1
(`Except.error 1`). -/
def check_letter (value : Str) : Except Nat Str :=
  if validate_char value then .ok (lowerW value) else .error 1

/-- Method `ValidatedLetters.__call__` (lines 229-266): with `values` the
(already type-converted) outer-letter strings, `input_len = len(values)` and
`input_set_len = len(set(values))`; a count outside 1..6 or a duplicate
prints an error and calls `sys.exit(1)`. -/
def validated_letters (values : List Str) : Except Nat (List Str) :=
  let input_len := values.length
  let input_set_len := values.dedup.length
  if ¬ (1 ≤ input_len ∧ input_len ≤ 6) then .error 1
  else if input_set_len ≠ input_len then .error 1
  else .ok values

/-- Function `validate_contain` (lines 213-226): when both a center letter and
outer letters were supplied and the center occurs among the outer letters,
print an error and call `sys.exit(1)`. -/
def validate_contain (center : Option Str) (letters : Option (List Str)) :
    Except Nat Unit :=
  match center, letters with
  | some c, some ls => if ls.contains c then .error 1 else .ok ()
  | _, _ => .ok ()

/-- The argparse `type=check_letter` conversion applied to each `-l` value in
command-line order; the first failure aborts the parse. -/
def check_letters : List Str → Except Nat (List Str)
  | [] => .ok []
  | v :: vs =>
    match check_letter v with
    | .error e => .error e
    | .ok c =>
      match check_letters vs with
      | .error e => .error e
      | .ok cs => .ok (c :: cs)

/-- Processing of the optional `-c` flag (lines 278-285): its value, when
present, goes through `type=check_letter`. -/
def parse_center (center_arg : Option Str) : Except Nat (Option Str) :=
  match center_arg with
  | none => .ok none
  | some v =>
    match check_letter v with
    | .error e => .error e
    | .ok c => .ok (some c)

/-- Processing of the optional `-l` flag (lines 286-294): its values, when
present, each go through `type=check_letter` and the converted list then
through the `ValidatedLetters` action. -/
def parse_letters (letters_arg : Option (List Str)) : Except Nat (Option (List Str)) :=
  match letters_arg with
  | none => .ok none
  | some vs =>
    match check_letters vs with
    | .error e => .error e
    | .ok cs =>
      match validated_letters cs with
      | .error e => .error e
      | .ok ls => .ok (some ls)

/-- Function `get_args` (lines 269-299): process `-c`, process `-l`, then run
`validate_contain` on the results.  (argparse processes the flags in
command-line order; the `-c`-first order is modelled, and every failure
yields the same `Except.error 1`, so the order does not affect the
outcome.) -/
def get_args (center_arg : Option Str) (letters_arg : Option (List Str)) :
    Except Nat (Option Str × Option (List Str)) :=
  match parse_center center_arg with
  | .error e => .error e
  | .ok center =>
    match parse_letters letters_arg with
    | .error e => .error e
    | .ok letters =>
      match validate_contain center letters with
      | .error e => .error e
      | .ok _ => .ok (center, letters)

/-- The non-interactive path of `main` (lines 302-314): when a center letter
and six outer letters all arrive from the command line, `get_letters` returns
`[center] + letters` without prompting, `get_words` loads the file and
`solver` runs on the result.  Paths on which `main` would prompt the user
interactively (InquirerPy input) are not modelled and return `none`. -/
def main_flow (center_arg : Option Str) (letters_arg : Option (List Str))
    (file : Option (List Str)) : Option (Except Nat (List Str × Nat)) :=
  match get_args center_arg letters_arg with
  | .error e => some (.error e)
  | .ok (some c, some ls) =>
    if c.length = 1 ∧ ls.length = 6 then
      some (match get_words file with
        | .error e => .error e
        | .ok word_list => .ok (solver word_list (c :: ls).flatten (c.headD ' ')))
    else none
  | .ok _ => none

/-- Well-formed letter configuration (spec section 3): the acceptable letters
are distinct lowercase letters, contain the center, and number between 2 and
7. -/
def wf_config (acceptable : List Char) (center : Char) : Prop :=
  acceptable.Nodup ∧ (∀ a ∈ acceptable, a ∈ ALPHABET) ∧ center ∈ acceptable ∧
    2 ≤ acceptable.length ∧ acceptable.length ≤ 7

instance (acceptable : List Char) (center : Char) :
    Decidable (wf_config acceptable center) := by
  unfold wf_config; infer_instance

/-- A word list of lowercase alphabetic strings (spec section 4.1). -/
def lower_words (word_list : List Str) : Prop :=
  ∀ w ∈ word_list, ∀ ch ∈ w, ch ∈ ALPHABET

instance (word_list : List Str) : Decidable (lower_words word_list) := by
  unfold lower_words; infer_instance

instance : IsTotal Str (fun x y => lowerW x ≤ lowerW y) :=
  ⟨fun a b => le_total (lowerW a) (lowerW b)⟩

instance : IsTrans Str (fun x y => lowerW x ≤ lowerW y) :=
  ⟨fun _ _ _ h1 h2 => le_trans h1 h2⟩

example : solver [['d','o','g'], ['g','o','d'], ['c','a','t']] ['g', 'o', 'd'] 'g'
    = ([['D','O','G'], ['G','O','D']], 2) := by decide

example : solver [['a','b'], ['b','a'], ['b']] ['a', 'b', 'c'] 'a'
    = ([['a','b'], ['b','a']], 0) := by decide

example : (['a', 'b'] : Str) ≤ ['a', 'c'] ∧ ([] : Str) ≤ ['a'] ∧ (['a'] : Str) ≤ ['a', 'b'] ∧
    ¬ (['b'] : Str) ≤ ['a', 'z'] := by decide

/-! Helper lemmas about characters and case mapping. -/

theorem alpha_facts : ∀ ch ∈ ALPHABET,
    Char.toLower ch = ch ∧ Char.toLower (Char.toUpper ch) = ch ∧
    Char.isUpper (Char.toUpper ch) = true ∧ Char.isUpper ch = false := by decide

theorem lowerW_eq_self {w : Str} (h : ∀ ch ∈ w, ch ∈ ALPHABET) : lowerW w = w := by
  induction w with
  | nil => rfl
  | cons a as ih =>
      have ha := (alpha_facts a (h a (List.mem_cons_self a as))).1
      have has := ih fun ch hch => h ch (List.mem_cons_of_mem a hch)
      simp only [lowerW, List.map_cons] at has ⊢
      rw [ha, has]

theorem lowerW_upperW {w : Str} (h : ∀ ch ∈ w, ch ∈ ALPHABET) : lowerW (upperW w) = w := by
  induction w with
  | nil => rfl
  | cons a as ih =>
      have ha := (alpha_facts a (h a (List.mem_cons_self a as))).2.1
      have has := ih fun ch hch => h ch (List.mem_cons_of_mem a hch)
      simp only [lowerW, upperW, List.map_cons] at has ⊢
      rw [ha, has]

theorem lowerW_mark {acceptable : List Char} {w : Str} (h : ∀ ch ∈ w, ch ∈ ALPHABET) :
    lowerW (mark acceptable w) = w := by
  unfold mark
  split
  · exact lowerW_upperW h
  · exact lowerW_eq_self h

/-! Helper lemmas characterising the pieces of `solver`. -/

theorem contains_mem {α : Type} [BEq α] [LawfulBEq α] {l : List α} {a : α} :
    l.contains a = true ↔ a ∈ l := List.elem_iff

theorem contains_false {α : Type} [BEq α] [LawfulBEq α] {l : List α} {a : α} :
    l.contains a = false ↔ a ∉ l := by
  rw [← Bool.not_eq_true]
  exact not_congr contains_mem

theorem word_ok_iff {acceptable : List Char} {center : Char} {word : Str}
    (h : ∀ ch ∈ word, ch ∈ ALPHABET) :
    word_ok acceptable center word = true ↔
      (center ∈ word ∧ ∀ ch ∈ word, ch ∈ acceptable) := by
  unfold word_ok unacceptable
  rw [Bool.and_eq_true, contains_mem, Bool.not_eq_true', List.any_eq_false]
  constructor
  · rintro ⟨h1, h2⟩
    refine ⟨h1, fun ch hch => ?_⟩
    have h3 := h2 ch hch
    by_contra hnot
    exact h3 (contains_mem.mpr (List.mem_filter.mpr
      ⟨h ch hch, by rw [Bool.not_eq_true']; exact contains_false.mpr hnot⟩))
  · rintro ⟨h1, h2⟩
    refine ⟨h1, fun ch hch => ?_⟩
    intro hc
    have hm := List.mem_filter.mp (contains_mem.mp hc)
    have h4 := hm.2
    rw [Bool.not_eq_true'] at h4
    exact contains_false.mp h4 (h2 ch hch)

theorem is_pangram_iff {acceptable : List Char} {word : Str} :
    is_pangram acceptable word = true ↔ ∀ a ∈ acceptable, a ∈ word := by
  simp [is_pangram]

theorem mem_solver_fst {v : Str} {word_list : List Str} {acceptable : List Char}
    {center : Char} :
    v ∈ (solver word_list acceptable center).1 ↔
      ∃ w ∈ word_list, word_ok acceptable center w = true ∧ mark acceptable w = v := by
  simp [solver, List.mem_insertionSort, List.mem_dedup, and_assoc]

theorem mark_any_upper {acceptable : List Char} {w : Str}
    (h : ∀ ch ∈ w, ch ∈ ALPHABET) (hne : w ≠ []) :
    (mark acceptable w).any Char.isUpper = is_pangram acceptable w := by
  unfold mark
  by_cases hp : is_pangram acceptable w = true
  · rw [if_pos hp, hp]
    cases w with
    | nil => exact absurd rfl hne
    | cons a as =>
        have ha := (alpha_facts a (h a (List.mem_cons_self a as))).2.2.1
        simp [upperW, ha]
  · have hf : is_pangram acceptable w = false := by
      revert hp; cases is_pangram acceptable w <;> simp
    rw [if_neg hp, hf]
    simp only [List.any_eq_false]
    intro ch hch
    simp [(alpha_facts ch (h ch hch)).2.2.2]


theorem solver_fst_eq (word_list : List Str) (acceptable : List Char) (center : Char) :
    (solver word_list acceptable center).1 =
      List.insertionSort (fun x y => lowerW x ≤ lowerW y)
        (((word_list.filter (word_ok acceptable center)).map (mark acceptable)).dedup) := rfl

theorem solver_snd_eq (word_list : List Str) (acceptable : List Char) (center : Char) :
    (solver word_list acceptable center).2 =
      (word_list.filter (word_ok acceptable center)).countP (is_pangram acceptable) := rfl

theorem two_le_exists_ne {l : List Char} (hn : l.Nodup) (hl : 2 ≤ l.length) (x : Char) :
    ∃ a ∈ l, a ≠ x := by
  match l, hl with
  | a :: b :: rest, _ =>
    have hab : a ≠ b := by
      rw [List.nodup_cons] at hn
      exact fun he => hn.1 (he ▸ List.mem_cons_self b rest)
    by_cases hax : a = x
    · refine ⟨b, List.mem_cons_of_mem a (List.mem_cons_self b rest), fun hbx => ?_⟩
      exact hab (by rw [hax, hbx])
    · exact ⟨a, List.mem_cons_self a (b :: rest), hax⟩

theorem word_ok_ne_nil {acceptable : List Char} {center : Char} {word : Str}
    (h : ∀ ch ∈ word, ch ∈ ALPHABET) (hok : word_ok acceptable center word = true) :
    word ≠ [] := by
  intro he
  have hc := ((word_ok_iff h).mp hok).1
  rw [he] at hc
  exact (List.not_mem_nil center) hc

/-- C10: `solver` is a pure function with no hidden state: two invocations on
identical word lists, acceptable letters and center letters return identical
word lists and pangram counts. -/
theorem solver_deterministic (wl1 wl2 : List Str) (acc1 acc2 : List Char) (c1 c2 : Char)
    (h1 : wl1 = wl2) (h2 : acc1 = acc2) (h3 : c1 = c2) :
    solver wl1 acc1 c1 = solver wl2 acc2 c2 := by
  rw [h1, h2, h3]

theorem solver_deterministic_witness :
    solver [['d','o','g']] ['g','o','d'] 'g' = solver [['d','o','g']] ['g','o','d'] 'g' :=
  solver_deterministic _ _ _ _ _ _ rfl rfl rfl

/-- C4: the incremental duplicate check `check_duplicate` compares the raw
input against the previously accepted lowercase letters with exact string
equality, so an uppercase variant of an already accepted letter is accepted
even though its lowercase normal form (appended on acceptance) duplicates an
accepted letter: `check_duplicate("A", ["a"])` is `True` while the claim and
the surrounding documentation require case-insensitive duplicate rejection. -/
theorem check_duplicate_case_bug :
    check_duplicate ['A'] [['a']] = true ∧ validate_char ['A'] = true ∧
      lowerW ['A'] = ['a'] := by decide

/-- C1: for a well-formed configuration and a word list of lowercase
alphabetic strings, the word collection returned by `solver` — read through
`lowerW`, since pangrams are represented in uppercased form — is exactly the
set of distinct input words that contain the center letter and use only
acceptable letters. -/
theorem solver_exact_match (word_list : List Str) (acceptable : List Char) (center : Char)
    (h1 : wf_config acceptable center) (h2 : lower_words word_list) :
    ∀ w : Str, w ∈ (solver word_list acceptable center).1.map lowerW ↔
      (w ∈ word_list ∧ center ∈ w ∧ ∀ ch ∈ w, ch ∈ acceptable) := by
  intro w
  rw [List.mem_map]
  constructor
  · rintro ⟨v, hv, rfl⟩
    obtain ⟨u, hu, hok, rfl⟩ := mem_solver_fst.mp hv
    have hlu : ∀ ch ∈ u, ch ∈ ALPHABET := h2 u hu
    rw [lowerW_mark hlu]
    exact ⟨hu, (word_ok_iff hlu).mp hok⟩
  · rintro ⟨hw, hc, hsub⟩
    have hlw : ∀ ch ∈ w, ch ∈ ALPHABET := h2 w hw
    exact ⟨mark acceptable w,
      mem_solver_fst.mpr ⟨w, hw, (word_ok_iff hlw).mpr ⟨hc, hsub⟩, rfl⟩,
      lowerW_mark hlw⟩

theorem solver_exact_match_witness :
    (['d','o','g'] : Str) ∈
      (solver [['d','o','g'], ['c','a','t']] ['g','o','d'] 'g').1.map lowerW :=
  (solver_exact_match [['d','o','g'], ['c','a','t']] ['g','o','d'] 'g'
    (by decide) (by decide) ['d','o','g']).mpr (by decide)

/-- C9: the solver imposes no minimum word length: for a well-formed
configuration the one-character word consisting of the center letter alone is
matched whenever it occurs in the word list, and the empty string is never
matched. -/
theorem solver_no_min_length (word_list : List Str) (acceptable : List Char) (center : Char)
    (h1 : wf_config acceptable center) (h2 : lower_words word_list) :
    ([center] ∈ word_list → [center] ∈ (solver word_list acceptable center).1) ∧
      [] ∉ (solver word_list acceptable center).1 := by
  constructor
  · intro hin
    have hl : ∀ ch ∈ [center], ch ∈ ALPHABET := h2 _ hin
    have hok : word_ok acceptable center [center] = true :=
      (word_ok_iff hl).mpr ⟨List.mem_singleton.mpr rfl,
        fun ch hch => by rw [List.mem_singleton.mp hch]; exact h1.2.2.1⟩
    obtain ⟨a, ha, hane⟩ := two_le_exists_ne h1.1 h1.2.2.2.1 center
    have hnp : ¬ is_pangram acceptable [center] = true := by
      intro hp
      exact hane (List.mem_singleton.mp ((is_pangram_iff.mp hp) a ha))
    have hmk : mark acceptable [center] = [center] := by
      unfold mark
      rw [if_neg hnp]
    exact mem_solver_fst.mpr ⟨[center], hin, hok, hmk⟩
  · intro hmem
    obtain ⟨u, hu, hok, hmk⟩ := mem_solver_fst.mp hmem
    have hne : u ≠ [] := word_ok_ne_nil (h2 u hu) hok
    apply hne
    unfold mark at hmk
    by_cases hp : is_pangram acceptable u = true
    · rw [if_pos hp] at hmk
      unfold upperW at hmk
      exact List.map_eq_nil_iff.mp hmk
    · rw [if_neg hp] at hmk
      exact hmk

theorem solver_no_min_length_witness :
    (['g'] : Str) ∈ (solver [['g'], ['g','o','d']] ['g','o','d'] 'g').1 ∧
      ([] : Str) ∉ (solver [['g'], ['g','o','d']] ['g','o','d'] 'g').1 :=
  ⟨(solver_no_min_length [['g'], ['g','o','d']] ['g','o','d'] 'g'
      (by decide) (by decide)).1 (by decide),
   (solver_no_min_length [['g'], ['g','o','d']] ['g','o','d'] 'g'
      (by decide) (by decide)).2⟩

/-- C3: for a lowercase alphabetic word list and a well-formed configuration,
the word list returned by `solver` is strictly ascending in case-insensitive
lexical order; in particular it has no duplicates, even across case variants,
so a word and its pangram-marked (uppercased) form are never both present. -/
theorem solver_sorted (word_list : List Str) (acceptable : List Char) (center : Char)
    (h1 : wf_config acceptable center) (h2 : lower_words word_list) :
    (solver word_list acceptable center).1.Pairwise (fun a b => lowerW a < lowerW b) := by
  have hsorted : (solver word_list acceptable center).1.Pairwise
      (fun a b => lowerW a ≤ lowerW b) := by
    rw [solver_fst_eq]
    exact List.sorted_insertionSort _ _
  have hnd : (solver word_list acceptable center).1.Nodup := by
    rw [solver_fst_eq]
    exact ((List.perm_insertionSort _ _).symm).nodup (List.nodup_dedup _)
  have hand := hsorted.and hnd
  refine List.Pairwise.imp_of_mem ?_ hand
  intro a b ha hb hr
  obtain ⟨u, hu, _, hmu⟩ := mem_solver_fst.mp ha
  obtain ⟨u', hu', _, hmu'⟩ := mem_solver_fst.mp hb
  refine lt_of_le_of_ne hr.1 ?_
  intro heq
  apply hr.2
  have e1 : lowerW a = u := by rw [← hmu]; exact lowerW_mark (h2 u hu)
  have e2 : lowerW b = u' := by rw [← hmu']; exact lowerW_mark (h2 u' hu')
  have h3 : u = u' := by rw [← e1, ← e2, heq]
  rw [← hmu, ← hmu', h3]

theorem solver_sorted_witness :
    (solver [['g','o','d'], ['d','o','g'], ['g','o']] ['g','o','d'] 'g').1.Pairwise
      (fun a b => lowerW a < lowerW b) :=
  solver_sorted [['g','o','d'], ['d','o','g'], ['g','o']] ['g','o','d'] 'g'
    (by decide) (by decide)

/-- C5: a returned entry is in pangram-marked (uppercased) form exactly when
the character set of its underlying word equals the acceptable-letter set,
and every non-marked entry contains the center letter and has a character
set that is a strict subset of the acceptable-letter set. -/
theorem solver_marking (word_list : List Str) (acceptable : List Char) (center : Char)
    (h1 : wf_config acceptable center) (h2 : lower_words word_list) :
    ∀ v ∈ (solver word_list acceptable center).1,
      ((v.any Char.isUpper = true) ↔ (lowerW v).toFinset = acceptable.toFinset) ∧
      (v.any Char.isUpper = false →
        center ∈ v ∧ (lowerW v).toFinset ⊂ acceptable.toFinset) := by
  intro v hv
  obtain ⟨u, hu, hok, hmv⟩ := mem_solver_fst.mp hv
  subst hmv
  have hlu := h2 u hu
  obtain ⟨hc, hsub⟩ := (word_ok_iff hlu).mp hok
  have hne : u ≠ [] := word_ok_ne_nil hlu hok
  have hany := @mark_any_upper acceptable u hlu hne
  have hlm := @lowerW_mark acceptable u hlu
  have hfsub : u.toFinset ⊆ acceptable.toFinset := fun x hx =>
    List.mem_toFinset.mpr (hsub x (List.mem_toFinset.mp hx))
  by_cases hp : is_pangram acceptable u = true
  · refine ⟨⟨fun _ => ?_, fun _ => by rw [hany, hp]⟩, fun hfalse => ?_⟩
    · rw [hlm]
      refine Finset.Subset.antisymm hfsub ?_
      intro a hax
      exact List.mem_toFinset.mpr ((is_pangram_iff.mp hp) a (List.mem_toFinset.mp hax))
    · rw [hany, hp] at hfalse
      exact Bool.noConfusion hfalse
  · have hpf : is_pangram acceptable u = false := by
      revert hp; cases is_pangram acceptable u <;> simp
    have hmk : mark acceptable u = u := by
      unfold mark; rw [if_neg hp]
    have hnall : ¬ ∀ a ∈ acceptable, a ∈ u := fun hall =>
      hp (is_pangram_iff.mpr hall)
    push_neg at hnall
    obtain ⟨a, ha, hna⟩ := hnall
    constructor
    · rw [hany, hpf, hlm]
      constructor
      · intro hft; exact Bool.noConfusion hft
      · intro heq
        exact absurd (List.mem_toFinset.mp (by rw [heq]; exact List.mem_toFinset.mpr ha)) hna
    · intro _
      rw [hmk, lowerW_eq_self hlu]
      refine ⟨hc, ?_⟩
      exact (Finset.ssubset_iff_of_subset hfsub).mpr
        ⟨a, List.mem_toFinset.mpr ha, fun hau => hna (List.mem_toFinset.mp hau)⟩

theorem solver_marking_witness :
    (((['D','O','G'] : Str).any Char.isUpper = true) ↔
      (lowerW ['D','O','G']).toFinset = (['g','o','d'] : List Char).toFinset) ∧
    ((['D','O','G'] : Str).any Char.isUpper = false →
      'g' ∈ (['D','O','G'] : Str) ∧
        (lowerW ['D','O','G']).toFinset ⊂ (['g','o','d'] : List Char).toFinset) :=
  solver_marking [['d','o','g']] ['g','o','d'] 'g' (by decide) (by decide)
    ['D','O','G'] (by decide)

/-- C2 (counterexample): with a word list containing a duplicate pangram
entry — allowed by the claim, which admits duplicate entries — `num_pan`
counts both occurrences while the returned set keeps one entry, so the
pangram count differs from the number of pangram-marked entries and exceeds
the number of returned words, although the configuration is well-formed and
the word list lowercase alphabetic. -/
theorem solver_dup_pangram_cex :
    (solver [['a','b','c'], ['a','b','c']] ['a','b','c'] 'a').2 = 2 ∧
    (solver [['a','b','c'], ['a','b','c']] ['a','b','c'] 'a').1.countP
      (fun v => v.any Char.isUpper) = 1 ∧
    (solver [['a','b','c'], ['a','b','c']] ['a','b','c'] 'a').1.length = 1 ∧
    wf_config ['a','b','c'] 'a' ∧
    lower_words [['a','b','c'], ['a','b','c']] := by decide

/-- C2 (amended): for a duplicate-free word list of lowercase alphabetic
strings and a well-formed configuration, the pangram count returned by
`solver` equals the number of returned pangram-marked (uppercased) entries,
is at most the number of returned words, and every pangram-marked entry's
character set is a superset of the acceptable-letter set. -/
theorem solver_pangram_count (word_list : List Str) (acceptable : List Char) (center : Char)
    (h1 : wf_config acceptable center) (h2 : lower_words word_list)
    (h3 : word_list.Nodup) :
    (solver word_list acceptable center).2 =
      (solver word_list acceptable center).1.countP (fun v => v.any Char.isUpper) ∧
    (solver word_list acceptable center).2 ≤ (solver word_list acceptable center).1.length ∧
    (∀ v ∈ (solver word_list acceptable center).1, v.any Char.isUpper = true →
      acceptable.toFinset ⊆ (lowerW v).toFinset) := by
  have hmat_sub : ∀ u ∈ word_list.filter (word_ok acceptable center), u ∈ word_list :=
    fun u hu => List.mem_of_mem_filter hu
  have hmat_nd : (word_list.filter (word_ok acceptable center)).Nodup := h3.filter _
  have hinj : ∀ x ∈ word_list.filter (word_ok acceptable center),
      ∀ y ∈ word_list.filter (word_ok acceptable center),
        mark acceptable x = mark acceptable y → x = y := by
    intro x hx y hy hxy
    rw [← lowerW_mark (h2 x (hmat_sub x hx)), ← lowerW_mark (h2 y (hmat_sub y hy)), hxy]
  have hmap_nd := List.Nodup.map_on hinj hmat_nd
  have hded : ((word_list.filter (word_ok acceptable center)).map (mark acceptable)).dedup
      = (word_list.filter (word_ok acceptable center)).map (mark acceptable) :=
    List.dedup_eq_self.mpr hmap_nd
  have hperm : (solver word_list acceptable center).1.Perm
      ((word_list.filter (word_ok acceptable center)).map (mark acceptable)) := by
    rw [solver_fst_eq, hded]
    exact List.perm_insertionSort _ _
  have hcong : (word_list.filter (word_ok acceptable center)).countP
        ((fun v => v.any Char.isUpper) ∘ mark acceptable)
      = (word_list.filter (word_ok acceptable center)).countP (is_pangram acceptable) := by
    refine List.countP_congr ?_
    intro u hu
    have hmu := @mark_any_upper acceptable u (h2 u (hmat_sub u hu))
      (word_ok_ne_nil (h2 u (hmat_sub u hu)) (List.of_mem_filter hu))
    simp only [Function.comp_apply]
    rw [hmu]
  refine ⟨?_, ?_, ?_⟩
  · calc (solver word_list acceptable center).2
        = (word_list.filter (word_ok acceptable center)).countP (is_pangram acceptable) :=
          solver_snd_eq word_list acceptable center
      _ = (word_list.filter (word_ok acceptable center)).countP
            ((fun v => v.any Char.isUpper) ∘ mark acceptable) := hcong.symm
      _ = ((word_list.filter (word_ok acceptable center)).map (mark acceptable)).countP
            (fun v => v.any Char.isUpper) := (List.countP_map _ _ _).symm
      _ = (solver word_list acceptable center).1.countP (fun v => v.any Char.isUpper) :=
          (List.Perm.countP_eq _ hperm).symm
  · have hlen : (solver word_list acceptable center).1.length
        = (word_list.filter (word_ok acceptable center)).length := by
      rw [hperm.length_eq, List.length_map]
    rw [hlen, solver_snd_eq]
    exact List.countP_le_length _
  · intro v hv hup
    obtain ⟨u, hu, hok, hmv⟩ := mem_solver_fst.mp hv
    subst hmv
    have hlu := h2 u hu
    have hne := word_ok_ne_nil hlu hok
    rw [mark_any_upper hlu hne] at hup
    rw [lowerW_mark hlu]
    refine Finset.subset_iff.mpr ?_
    intro a ha
    exact List.mem_toFinset.mpr ((is_pangram_iff.mp hup) a (List.mem_toFinset.mp ha))

theorem solver_pangram_count_witness :
    (solver [['g','o','d'], ['g','o']] ['g','o','d'] 'g').2 =
      (solver [['g','o','d'], ['g','o']] ['g','o','d'] 'g').1.countP
        (fun v => v.any Char.isUpper) ∧
    (solver [['g','o','d'], ['g','o']] ['g','o','d'] 'g').2 ≤
      (solver [['g','o','d'], ['g','o']] ['g','o','d'] 'g').1.length ∧
    (∀ v ∈ (solver [['g','o','d'], ['g','o']] ['g','o','d'] 'g').1,
      v.any Char.isUpper = true →
        (['g','o','d'] : List Char).toFinset ⊆ (lowerW v).toFinset) :=
  solver_pangram_count [['g','o','d'], ['g','o']] ['g','o','d'] 'g'
    (by decide) (by decide) (by decide)

/-- C8: `print_results` reports "No words were found." exactly when the
matched word list is empty (and `solver` on an empty word list returns the
empty collection with pangram count 0); with exactly one matched word and
zero pangrams the output uses singular grammar and omits the pangram
clause. -/
theorem print_results_boundaries :
    (∀ (words : List Str) (num_pan : Nat),
      print_results words num_pan = ["No words were found."] ↔ words = []) ∧
    (∀ (acceptable : List Char) (center : Char), solver [] acceptable center = ([], 0)) ∧
    (∀ v : Str, print_results [v] 0 = ["1 word was found:", "\t" ++ String.mk v]) := by
  refine ⟨?_, ?_, ?_⟩
  · intro words num_pan
    constructor
    · intro h
      cases words with
      | nil => rfl
      | cons w ws =>
        exfalso
        have hlen := congrArg List.length h
        have hl2 : (print_results (w :: ws) num_pan).length = ws.length + 2 := by
          simp [print_results]
        rw [hl2] at hlen
        simp at hlen
    · intro h
      subst h
      rfl
  · intro acceptable center
    rfl
  · intro v
    show (toString (1:Nat) ++ " word" ++ "" ++ "" ++ " " ++ "was" ++ " found:")
        :: ["\t" ++ String.mk v] = _
    rfl

/-! Helper lemmas for the command-line layer. -/

theorem check_letter_ok {v : Str} (h : validate_char v = true) :
    check_letter v = .ok (lowerW v) := by
  unfold check_letter; rw [if_pos h]

theorem check_letter_error_one {v : Str} {e : Nat} (h : check_letter v = .error e) :
    e = 1 := by
  unfold check_letter at h
  split at h
  · cases h
  · injection h with h'; exact h'.symm

theorem check_letters_total : ∀ vs : List Str,
    ((∀ v ∈ vs, validate_char v = true) ∧ check_letters vs = .ok (vs.map lowerW)) ∨
    ((∃ v ∈ vs, validate_char v = false) ∧ check_letters vs = .error 1) := by
  intro vs
  induction vs with
  | nil =>
      left
      exact ⟨fun v hv => absurd hv (List.not_mem_nil v), rfl⟩
  | cons v vs ih =>
      by_cases hv : validate_char v = true
      · have hcl := check_letter_ok hv
        rcases ih with ⟨hall, hok⟩ | ⟨hex, herr⟩
        · left
          refine ⟨?_, ?_⟩
          · intro x hx
            rcases List.mem_cons.mp hx with rfl | hx'
            · exact hv
            · exact hall x hx'
          · simp only [check_letters, hcl, hok, List.map_cons]
        · right
          obtain ⟨x, hx, hxf⟩ := hex
          exact ⟨⟨x, List.mem_cons_of_mem v hx, hxf⟩,
            by simp only [check_letters, hcl, herr]⟩
      · have hvf : validate_char v = false := by
          revert hv; cases validate_char v <;> simp
        have hcl : check_letter v = .error 1 := by
          unfold check_letter; rw [if_neg hv]
        right
        exact ⟨⟨v, List.mem_cons_self v vs, hvf⟩, by simp only [check_letters, hcl]⟩

theorem check_letters_error_one {vs : List Str} {e : Nat}
    (h : check_letters vs = .error e) : e = 1 := by
  rcases check_letters_total vs with ⟨_, hok⟩ | ⟨_, herr⟩
  · rw [hok] at h; cases h
  · rw [herr] at h; injection h with h'; exact h'.symm

theorem check_letters_ok_eq {vs cs : List Str} (h : check_letters vs = .ok cs) :
    cs = vs.map lowerW := by
  rcases check_letters_total vs with ⟨_, hok⟩ | ⟨_, herr⟩
  · rw [hok] at h; injection h with h'; exact h'.symm
  · rw [herr] at h; cases h

theorem dedup_length_iff {vs : List Str} : vs.dedup.length = vs.length ↔ vs.Nodup := by
  constructor
  · intro h
    have hsub := List.dedup_sublist vs
    have heq := hsub.eq_of_length h
    rw [← heq]
    exact List.nodup_dedup vs
  · intro h
    rw [List.dedup_eq_self.mpr h]

theorem validated_letters_err_len {vs : List Str}
    (h : ¬ (1 ≤ vs.length ∧ vs.length ≤ 6)) : validated_letters vs = .error 1 := by
  simp only [validated_letters]
  rw [if_pos h]

theorem validated_letters_err_dup {vs : List Str} (h : ¬ vs.Nodup) :
    validated_letters vs = .error 1 := by
  simp only [validated_letters]
  by_cases hlen : 1 ≤ vs.length ∧ vs.length ≤ 6
  · rw [if_neg (not_not_intro hlen), if_pos (fun he => h (dedup_length_iff.mp he))]
  · rw [if_pos hlen]

theorem validated_letters_error_one {vs : List Str} {e : Nat}
    (h : validated_letters vs = .error e) : e = 1 := by
  simp only [validated_letters] at h
  split at h
  · injection h with h'; exact h'.symm
  · split at h
    · injection h with h'; exact h'.symm
    · cases h

theorem validated_letters_ok_eq {vs ls : List Str} (h : validated_letters vs = .ok ls) :
    ls = vs := by
  simp only [validated_letters] at h
  split at h
  · cases h
  · split at h
    · cases h
    · injection h with h'; exact h'.symm

theorem validate_contain_error_one {co : Option Str} {lo : Option (List Str)} {e : Nat}
    (h : validate_contain co lo = .error e) : e = 1 := by
  cases co with
  | none => simp only [validate_contain] at h; exact Except.noConfusion h
  | some c =>
    cases lo with
    | none => simp only [validate_contain] at h; exact Except.noConfusion h
    | some ls =>
      simp only [validate_contain] at h
      split at h
      · injection h with h'; exact h'.symm
      · cases h

theorem parse_center_error_one {ca : Option Str} {e : Nat}
    (h : parse_center ca = .error e) : e = 1 := by
  cases ca with
  | none => simp only [parse_center] at h; exact Except.noConfusion h
  | some v =>
    cases hcl : check_letter v with
    | error e' =>
      simp only [parse_center, hcl] at h
      injection h with h'
      rw [← h']
      exact check_letter_error_one hcl
    | ok c =>
      simp only [parse_center, hcl] at h
      exact Except.noConfusion h

theorem parse_letters_error_one {la : Option (List Str)} {e : Nat}
    (h : parse_letters la = .error e) : e = 1 := by
  cases la with
  | none => simp only [parse_letters] at h; exact Except.noConfusion h
  | some vs =>
    cases hcls : check_letters vs with
    | error e' =>
      simp only [parse_letters, hcls] at h
      injection h with h'
      rw [← h']
      exact check_letters_error_one hcls
    | ok cs =>
      simp only [parse_letters, hcls] at h
      cases hvl : validated_letters cs with
      | error e2 =>
        simp only [hvl] at h
        injection h with h'
        rw [← h']
        exact validated_letters_error_one hvl
      | ok ls =>
        simp only [hvl] at h
        exact Except.noConfusion h

theorem get_args_error_one {ca : Option Str} {la : Option (List Str)} {e : Nat}
    (h : get_args ca la = .error e) : e = 1 := by
  cases hpc : parse_center ca with
  | error e' =>
    simp only [get_args, hpc] at h
    injection h with h'
    rw [← h']
    exact parse_center_error_one hpc
  | ok co =>
    simp only [get_args, hpc] at h
    cases hpl : parse_letters la with
    | error e2 =>
      simp only [hpl] at h
      injection h with h'
      rw [← h']
      exact parse_letters_error_one hpl
    | ok lo =>
      simp only [hpl] at h
      cases hvc : validate_contain co lo with
      | error e3 =>
        simp only [hvc] at h
        injection h with h'
        rw [← h']
        exact validate_contain_error_one hvc
      | ok u =>
        simp only [hvc] at h
        exact Except.noConfusion h

/-- C6: `get_words` returns every line of the file after the first two, each
lowercased, preserving order; when the file is absent it yields `error 1`
(non-zero exit after the printed message), and on the modelled `main` paths a
missing file never reaches `solver`: the run ends in `error 1`. -/
theorem get_words_spec :
    (∀ lines : List Str, ∃ ws, get_words (some lines) = .ok ws ∧
        ws.length = lines.length - 2 ∧
        ∀ i : Nat, ws[i]? = (lines[i + 2]?).map lowerW) ∧
    get_words none = .error 1 ∧
    (∀ (ca : Option Str) (la : Option (List Str)),
      main_flow ca la none = none ∨ main_flow ca la none = some (.error 1)) := by
  refine ⟨?_, rfl, ?_⟩
  · intro lines
    refine ⟨(lines.drop 2).map lowerW, rfl, ?_, ?_⟩
    · rw [List.length_map, List.length_drop]
    · intro i
      rw [List.getElem?_map, List.getElem?_drop, Nat.add_comm 2 i]
  · intro ca la
    cases hga : get_args ca la with
    | error e =>
      right
      have he := get_args_error_one hga
      subst he
      simp only [main_flow, hga]
    | ok p =>
      obtain ⟨co, lo⟩ := p
      cases co with
      | none => left; simp only [main_flow, hga]
      | some c =>
        cases lo with
        | none => left; simp only [main_flow, hga]
        | some ls =>
          by_cases hcond : c.length = 1 ∧ ls.length = 6
          · right
            simp only [main_flow, hga, if_pos hcond]
            rfl
          · left
            simp only [main_flow, hga, if_neg hcond]

/-- C7: a command-line invocation whose outer-letters argument has a count
outside 1..6, contains duplicate letters, contains an entry that is not a
single alphabetic character, or supplies a center letter that occurs among
the outer letters, makes argument parsing stop with exit status 1, before the
solver can run on any modelled `main` path. -/
theorem get_args_rejects (ca : Option Str) (la : Option (List Str)) (file : Option (List Str))
    (h : (∃ vs, la = some vs ∧ (vs.length < 1 ∨ 6 < vs.length)) ∨
         (∃ vs, la = some vs ∧ ¬ vs.Nodup) ∨
         (∃ vs, la = some vs ∧ ∃ v ∈ vs, validate_char v = false) ∨
         (∃ c0 vs, ca = some c0 ∧ la = some vs ∧ c0 ∈ vs)) :
    get_args ca la = .error 1 ∧ main_flow ca la file = some (.error 1) := by
  have hmain : get_args ca la = .error 1 → main_flow ca la file = some (.error 1) := by
    intro hg
    simp only [main_flow, hg]
  refine (fun hg => ⟨hg, hmain hg⟩) ?_
  have hletters_err : ∀ vs, la = some vs →
      ((vs.length < 1 ∨ 6 < vs.length) ∨ ¬ vs.Nodup ∨ (∃ v ∈ vs, validate_char v = false)) →
      parse_letters la = .error 1 := by
    intro vs hla hcase
    subst hla
    rcases check_letters_total vs with ⟨hall, hok⟩ | ⟨hex, herr⟩
    · rcases hcase with hlen | hnd | hinv
      · have hv := @validated_letters_err_len (vs.map lowerW)
          (by rw [List.length_map]; intro hcontra; rcases hlen with h' | h' <;> omega)
        simp only [parse_letters, hok, hv]
      · have hv := @validated_letters_err_dup (vs.map lowerW)
          (fun hnd2 => hnd hnd2.of_map)
        simp only [parse_letters, hok, hv]
      · obtain ⟨v, hv, hvf⟩ := hinv
        rw [hall v hv] at hvf
        exact Bool.noConfusion hvf
    · simp only [parse_letters, herr]
  cases hpc : parse_center ca with
  | error e =>
    have he := parse_center_error_one hpc
    subst he
    simp only [get_args, hpc]
  | ok co =>
    rcases h with ⟨vs, hla, hc⟩ | ⟨vs, hla, hc⟩ | ⟨vs, hla, hc⟩ | ⟨c0, vs, hca, hla, hmem⟩
    · have hpl := hletters_err vs hla (Or.inl hc)
      simp only [get_args, hpc, hpl]
    · have hpl := hletters_err vs hla (Or.inr (Or.inl hc))
      simp only [get_args, hpc, hpl]
    · have hpl := hletters_err vs hla (Or.inr (Or.inr hc))
      simp only [get_args, hpc, hpl]
    · subst hca
      subst hla
      cases hpl : parse_letters (some vs) with
      | error e2 =>
        have he := parse_letters_error_one hpl
        subst he
        simp only [get_args, hpc, hpl]
      | ok lo =>
        have hco : co = some (lowerW c0) := by
          cases hcl : check_letter c0 with
          | error e' =>
            simp only [parse_center, hcl] at hpc
            exact Except.noConfusion hpc
          | ok c1 =>
            simp only [parse_center, hcl] at hpc
            have hc1 : c1 = lowerW c0 := by
              unfold check_letter at hcl
              split at hcl
              · injection hcl with h'; exact h'.symm
              · cases hcl
            injection hpc with h'
            rw [← h', hc1]
        have hlo : lo = some (vs.map lowerW) := by
          cases hcls : check_letters vs with
          | error e' =>
            simp only [parse_letters, hcls] at hpl
            exact Except.noConfusion hpl
          | ok cs =>
            simp only [parse_letters, hcls] at hpl
            cases hvl : validated_letters cs with
            | error e2 =>
              simp only [hvl] at hpl
              exact Except.noConfusion hpl
            | ok ls =>
              simp only [hvl] at hpl
              injection hpl with h'
              rw [← h', validated_letters_ok_eq hvl, check_letters_ok_eq hcls]
        subst hco
        subst hlo
        have hvc : validate_contain (some (lowerW c0)) (some (vs.map lowerW)) = .error 1 := by
          simp only [validate_contain]
          rw [if_pos (contains_mem.mpr (List.mem_map_of_mem lowerW hmem))]
        simp only [get_args, hpc, hpl, hvc]

theorem get_args_rejects_witness :
    get_args (some ['a']) (some [['a'], ['b']]) = .error 1 ∧
      main_flow (some ['a']) (some [['a'], ['b']]) none = some (.error 1) :=
  get_args_rejects (some ['a']) (some [['a'], ['b']]) none
    (Or.inr (Or.inr (Or.inr ⟨['a'], [['a'], ['b']], rfl, rfl, by decide⟩)))
